import Mathlib

set_option maxRecDepth 40000

/-!
# Verification of the Timeclock single-page timesheet (src/app.js)

A shallow embedding of the computational core of `src/app.js`: the
calculator (`timeToMinutes`, `computeHours`, the aggregation loop of
`render`) and the store (`loadState`, `saveState`, `addEntry`,
`deleteEntry`, `editEntry`, the import handler, clear).

Modelling conventions:
* JavaScript values that flow out of `JSON.parse` are modelled by the
  inductive type `Json`.  JS numbers are modelled as rationals (the app
  never exercises float rounding; `NaN` produced by `Number()` on
  non-numeric strings is modelled by `Option.none`).
* Side effects are made explicit: `localStorage` content is an input to
  `loadState`, fresh ids (`uid()`) and timestamps (`new Date()`) are
  parameters, `confirm()` outcomes are boolean parameters, thrown
  exceptions are `Except Unit`.
* String primitives (`split`, `trim`, `Number`, `padStart`) are
  implemented over `List Char` mirroring their JS semantics on the
  fragment the app exercises.
-/

namespace Timeclock

/-- JavaScript values produced by `JSON.parse`: null, booleans, numbers,
strings, arrays and objects.  Object field lists are as parsed (JSON.parse
yields objects with distinct keys; lookup takes the first match). -/
inductive Json where
  | null : Json
  | bool (b : Bool) : Json
  | num (q : ℚ) : Json
  | str (s : String) : Json
  | arr (elems : List Json) : Json
  | obj (fields : List (String × Json)) : Json

/-- The fixed weekday list `DAYS` (src/app.js line 9). -/
def DAYS : List String :=
  ["Monday", "Tuesday", "Wednesday", "Thursday", "Friday", "Saturday", "Sunday"]

/-- JS truthiness of a parsed JSON value: `false`, `0`, `""` and `null`
are falsy; objects and arrays are always truthy. -/
def truthy : Json → Bool
  | Json.null => false
  | Json.bool b => b
  | Json.num q => decide (q ≠ 0)
  | Json.str s => decide (s ≠ "")
  | Json.arr _ => true
  | Json.obj _ => true

/-- Truthiness of a possibly-undefined value (`undefined` is falsy). -/
def truthyOpt : Option Json → Bool
  | none => false
  | some j => truthy j

/-- JS property read `v[k]` that can throw: reading a property of `null`
raises a TypeError; reading an absent property of an object, or any named
property of a primitive or of a parsed array, yields `undefined` (`none`). -/
def jsGet (v : Json) (k : String) : Except Unit (Option Json) :=
  match v with
  | Json.null => Except.error ()
  | Json.obj fields => Except.ok ((fields.find? (fun p => decide (p.1 = k))).map (fun p => p.2))
  | _ => Except.ok none

/-- JS property read that is known not to throw (used only where the
source has already checked the receiver is truthy, hence not null). -/
def jsField (v : Json) (k : String) : Option Json :=
  match v with
  | Json.obj fields => (fields.find? (fun p => decide (p.1 = k))).map (fun p => p.2)
  | _ => none

/-- JS `Array.isArray` on a possibly-undefined value. -/
def isArr : Option Json → Bool
  | some (Json.arr _) => true
  | _ => false

/-- JS `===` on parsed JSON values: structural on primitives.  Two
composite (array/object) values obtained from separate parses are never
reference-equal, so `===` on them is `false`; aliasing of one and the
same object is not modelled. -/
def jsStrictEq : Json → Json → Bool
  | Json.null, Json.null => true
  | Json.bool a, Json.bool b => decide (a = b)
  | Json.num a, Json.num b => decide (a = b)
  | Json.str a, Json.str b => decide (a = b)
  | _, _ => false

/-- Decimal rendering of a rational (used only inside `jsToString`).
Integers are rendered exactly as JS does; for non-integers the fractional
expansion is emitted digit by digit (JS prints the shortest decimal that
round-trips through the IEEE double; for the terminating decimals the app
can encounter the two agree, and no claim depends on this rendering). -/
def fracDigits : ℕ → ℚ → List Char
  | 0, _ => []
  | fuel + 1, q =>
    if q = 0 then []
    else
      let q10 := q * 10
      let d := q10.floor.toNat
      Char.ofNat (48 + d) :: fracDigits fuel (q10 - q10.floor)

/-- Decimal rendering of a rational, sign and integer part included. -/
def qToString (q : ℚ) : String :=
  if q.den = 1 then toString q.num
  else
    let sgn := if q < 0 then "-" else ""
    let a := |q|
    sgn ++ toString a.floor ++ "." ++ String.mk (fracDigits 20 (a - a.floor))

mutual

/-- JS `String(v)` coercion on a parsed JSON value. -/
def jsToString : Json → String
  | Json.null => "null"
  | Json.bool true => "true"
  | Json.bool false => "false"
  | Json.num q => qToString q
  | Json.str s => s
  | Json.arr xs => String.intercalate "," (jsArrElems xs)
  | Json.obj _ => "[object Object]"

/-- JS `Array.prototype.join(",")` element rendering: null elements render
as the empty string, others via `String()`. -/
def jsArrElems : List Json → List String
  | [] => []
  | Json.null :: js => "" :: jsArrElems js
  | j :: js => jsToString j :: jsArrElems js

end

/-- JS `String(v)` where `v` may be `undefined`. -/
def jsToStringU : Option Json → String
  | none => "undefined"
  | some j => jsToString j

/-! ## String primitives (JS semantics over `List Char`) -/

/-- Whitespace for JS `trim` / `Number` (ASCII fragment). -/
def isJsSpace (c : Char) : Bool :=
  c = ' ' || c = '\t' || c = '\n' || c = '\r' || c = '\x0b' || c = '\x0c'

/-- Strip leading and trailing whitespace from a character list. -/
def trimChars (cs : List Char) : List Char :=
  ((cs.dropWhile isJsSpace).reverse.dropWhile isJsSpace).reverse

/-- JS `String.prototype.trim()`. -/
def jsTrim (s : String) : String :=
  String.mk (trimChars s.data)

/-- JS `String.prototype.split(sep)` for a one-character separator:
`"".split(":") = [""]`, `"a:".split(":") = ["a", ""]`.  The result is
never empty, so prepending to its head loses nothing. -/
def splitOnChar (sep : Char) : List Char → List (List Char)
  | [] => [[]]
  | c :: cs =>
    let r := splitOnChar sep cs
    if c = sep then [] :: r else (c :: r.headD []) :: r.tail

/-- Numeric value of a decimal digit character. -/
def digitVal? (c : Char) : Option ℕ :=
  if '0' ≤ c && c ≤ '9' then some (c.toNat - 48) else none

/-- Accumulate decimal digits left to right; `none` on a non-digit. -/
def digitsAux : List Char → ℕ → Option ℕ
  | [], acc => some acc
  | c :: cs, acc =>
    match digitVal? c with
    | some d => digitsAux cs (acc * 10 + d)
    | none => none

/-- Value of a non-empty all-digit character list. -/
def digitsToNat (cs : List Char) : Option ℕ :=
  match cs with
  | [] => none
  | _ => digitsAux cs 0

/-- JS `Number(s)` on a string, on the fragment the app exercises:
leading/trailing whitespace ignored, `"" ↦ 0`, optional sign, decimal
digits with an optional fraction (`"5."`, `".5"` included); everything
else is `NaN`, modelled as `none`.  (The full JS grammar additionally has
hex/binary/exponent forms, which no `HH:MM` component can take.) -/
def jsNumberChars (cs : List Char) : Option ℚ :=
  let t := trimChars cs
  if t.isEmpty then some 0
  else
    let neg := t.head? = some '-'
    let signed := neg ∨ t.head? = some '+'
    let u := if signed then t.tail else t
    let sign : ℚ := if neg then -1 else 1
    match splitOnChar '.' u with
    | [w] => (digitsToNat w).map (fun n => sign * (n : ℚ))
    | [w, f] =>
      if w.isEmpty && f.isEmpty then none
      else
        match (if w.isEmpty then some 0 else digitsToNat w),
              (if f.isEmpty then some 0 else digitsToNat f) with
        | some wn, some fn => some (sign * ((wn : ℚ) + (fn : ℚ) / (10 : ℚ) ^ f.length))
        | _, _ => none
    | _ => none

/-- JS `Number(s)`. -/
def jsNumber (s : String) : Option ℚ :=
  jsNumberChars s.data

/-! ## Calculator (src/app.js lines 63-80) -/

/-- The function `timeToMinutes` (line 64): `const [hh, mm] = t.split(":").map(Number);
return hh * 60 + mm;`.  A missing second component is `Number(undefined)
= NaN`; `NaN` anywhere is modelled as `none`. -/
def timeToMinutes (t : String) : Option ℚ :=
  let parts := splitOnChar ':' t.data
  match parts.get? 0, parts.get? 1 with
  | some hs, some ms =>
    match jsNumberChars hs, jsNumberChars ms with
    | some hh, some mm => some (hh * 60 + mm)
    | _, _ => none
  | _, _ => none

/-- The function `computeHours` (line 70): difference of the two minute values, plus
`24 * 60` when negative (midnight crossing), divided by `60`.  A `NaN`
input propagates (`NaN < 0` is false, and all arithmetic on `NaN` is
`NaN`, so the rollover branch never fires on `NaN`). -/
def computeHours (timeIn timeOut : String) : Option ℚ :=
  match timeToMinutes timeIn, timeToMinutes timeOut with
  | some inMin, some outMin =>
    let diff := outMin - inMin
    some ((if diff < 0 then diff + 24 * 60 else diff) / 60)
  | _, _ => none

/-! ## Data model -/

/-- One stored entry.  `addEntry` only ever stores strings, but the
handler for import stores the raw parsed `id`, `timeIn`, `timeOut`
and `createdAt`, so those fields are `Json`.  `employee` and `notes` are
always strings (`trim()` on add, `String()` on import), and `day` is
always a string (`DAYS.includes` with `===` only accepts the seven
literal strings). -/
structure Entry where
  id : Json
  employee : String
  day : String
  timeIn : Json
  timeOut : Json
  notes : String
  createdAt : Json

/-- The persisted aggregate `{ entries: [...] }`. -/
structure Doc where
  entries : List Entry

/-- The candidate read from the form inputs on submit (all are DOM input
values, hence strings). -/
structure Candidate where
  employee : String
  day : String
  timeIn : String
  timeOut : String
  notes : String

/-- The draft the edit flow loads back into the form inputs. -/
structure Draft where
  employee : String
  day : String
  timeIn : String
  timeOut : String
  notes : String

/-! ## Store (src/app.js lines 34-48, 128-167, 227-264) -/

/-- The empty document `{ entries: [] }` as a parsed value. -/
def emptyDocJson : Json :=
  Json.obj [("entries", Json.arr [])]

/-- The check `loadState` performs on a parsed value:
`parsed.entries` exists (reading it off `null` throws, which the
surrounding `try` turns into a failure), is truthy and is an array. -/
def hasValidEntries (parsed : Json) : Bool :=
  match jsGet parsed "entries" with
  | Except.error _ => false
  | Except.ok ent => truthyOpt ent && isArr ent

/-- The function `loadState` (line 38).  The input models
`localStorage.getItem(STORAGE_KEY)` composed with `JSON.parse`: `none`
for a missing (or empty, hence falsy) raw value, `some (Except.error ())`
for a raw value `JSON.parse` throws on, `some (Except.ok parsed)`
otherwise.  Returns the parsed value itself when it has a valid `entries`
array, and `{ entries: [] }` in every other case; the `try/catch` means
no exception escapes. -/
def loadState (raw : Option (Except Unit Json)) : Json :=
  match raw with
  | none => emptyDocJson
  | some (Except.error _) => emptyDocJson
  | some (Except.ok parsed) =>
    match jsGet parsed "entries" with
    | Except.error _ => emptyDocJson
    | Except.ok ent =>
      if !truthyOpt ent || !isArr ent then emptyDocJson else parsed

/-- The function `addEntry` (line 128): appends a new entry with a fresh id and
timestamp, trimming `employee` and `notes`. -/
def addEntry (doc : Doc) (c : Candidate) (freshId now : String) : Doc :=
  { entries := doc.entries ++
      [{ id := Json.str freshId
       , employee := jsTrim c.employee
       , day := c.day
       , timeIn := Json.str c.timeIn
       , timeOut := Json.str c.timeOut
       , notes := jsTrim c.notes
       , createdAt := Json.str now }] }

/-- The form submit handler (line 171): alerts and leaves the state
unchanged when the trimmed employee name is empty or a time is missing;
otherwise calls `addEntry`.  The second component is the alert message,
`none` on success. -/
def submitAdd (doc : Doc) (c : Candidate) (freshId now : String) : Doc × Option String :=
  if jsTrim c.employee = "" then
    (doc, some "Please enter an employee name.")
  else if c.timeIn = "" ∨ c.timeOut = "" then
    (doc, some "Please enter time in and time out.")
  else
    (addEntry doc c freshId now, none)

/-- The function `deleteEntry` (line 142): after the `confirm` gate (its outcome is
the `ok` parameter), keeps exactly the entries whose id is not
`===`-equal to the given id.  A non-matching id is a silent no-op: there
is no error channel. -/
def deleteEntry (ok : Bool) (doc : Doc) (id : Json) : Doc :=
  if ok then { entries := doc.entries.filter (fun e => !jsStrictEq e.id id) }
  else doc

/-- The function `editEntry` (line 150): `find` the first entry with the given id; if
none, return unchanged with no draft.  Otherwise prefill the form from
that entry (DOM input assignment coerces with `String()`; `entry.notes ||
""` keeps a truthy notes value) and remove every entry with that id. -/
def editEntry (doc : Doc) (id : Json) : Doc × Option Draft :=
  match doc.entries.find? (fun e => jsStrictEq e.id id) with
  | none => (doc, none)
  | some entry =>
    ({ entries := doc.entries.filter (fun e => !jsStrictEq e.id id) },
     some { employee := entry.employee
          , day := entry.day
          , timeIn := jsToString entry.timeIn
          , timeOut := jsToString entry.timeOut
          , notes := if entry.notes = "" then "" else entry.notes })

/-! ## Import (src/app.js lines 227-264) -/

/-- The import filter (line 242): `x && DAYS.includes(x.day) &&
x.employee && x.timeIn && x.timeOut`.  `DAYS.includes` uses `===`, so it
only accepts the seven literal day strings. -/
def importValid (x : Json) : Bool :=
  truthy x
    && (match jsField x "day" with
        | some (Json.str s) => DAYS.contains s
        | _ => false)
    && truthyOpt (jsField x "employee")
    && truthyOpt (jsField x "timeIn")
    && truthyOpt (jsField x "timeOut")

/-- The day string of a candidate that passed the filter. -/
def dayString : Option Json → String
  | some (Json.str s) => s
  | _ => ""

/-- The sanitize map of the import handler (line 243): fresh id when
`x.id` is falsy or absent, `String()` coercion of `employee`, raw `day`,
`timeIn`, `timeOut`, `String()` of truthy `notes` (else `""`), fresh
timestamp when `createdAt` is falsy or absent.  The filter guarantees
`day`, `timeIn` and `timeOut` are present (the `getD` defaults are
unreachable). -/
def cleanEntry (fid now : String) (x : Json) : Entry :=
  { id := match jsField x "id" with
          | some v => if truthy v then v else Json.str fid
          | none => Json.str fid
  , employee := jsToStringU (jsField x "employee")
  , day := dayString (jsField x "day")
  , timeIn := (jsField x "timeIn").getD Json.null
  , timeOut := (jsField x "timeOut").getD Json.null
  , notes := if truthyOpt (jsField x "notes") then jsToStringU (jsField x "notes") else ""
  , createdAt := match jsField x "createdAt" with
                 | some v => if truthy v then v else Json.str now
                 | none => Json.str now }

/-- Apply `cleanEntry` along a list, feeding each position a fresh id. -/
def cleanListAux (fids : ℕ → String) (now : String) : ℕ → List Json → List Entry
  | _, [] => []
  | i, x :: xs => cleanEntry (fids i) now x :: cleanListAux fids now (i + 1) xs

/-- The list `cleaned` (line 241): the valid candidates, sanitized. -/
def cleanList (items : List Json) (fids : ℕ → String) (now : String) : List Entry :=
  cleanListAux fids now 0 (items.filter importValid)

/-- The import change handler (line 227).  `parseResult` models
`JSON.parse(await file.text())` (`Except.error` when it throws, caught by
the handler).  A parsed value without a truthy `entries` array alerts and
changes nothing.  Otherwise the handler computes `cleaned`, asks for
confirmation reporting `cleaned.length`, and on `ok` appends `cleaned` to
the existing entries (`concat`), returning the merged document and the
number of entries imported. -/
def importMerge (doc : Doc) (parseResult : Except Unit Json) (fids : ℕ → String)
    (now : String) (ok : Bool) : Doc × ℕ :=
  match parseResult with
  | Except.error _ => (doc, 0)
  | Except.ok parsed =>
    match jsGet parsed "entries" with
    | Except.error _ => (doc, 0)
    | Except.ok ent =>
      if !truthyOpt ent || !isArr ent then (doc, 0)
      else
        match ent with
        | some (Json.arr items) =>
          let cleaned := cleanList items fids now
          if ok then ({ entries := doc.entries ++ cleaned }, cleaned.length)
          else (doc, 0)
        | _ => (doc, 0)

/-! ## Serialization (src/app.js lines 34-36, 213-225) -/

/-- The JSON value `JSON.stringify` serializes for one entry: the seven
fields in insertion order (both `addEntry` and the import map create them
in this order). -/
def entryToJson (e : Entry) : Json :=
  Json.obj [ ("id", e.id)
           , ("employee", Json.str e.employee)
           , ("day", Json.str e.day)
           , ("timeIn", e.timeIn)
           , ("timeOut", e.timeOut)
           , ("notes", Json.str e.notes)
           , ("createdAt", e.createdAt) ]

/-- The function `saveState` (line 34) serializes `{ entries: [...] }`;
`JSON.stringify` followed by `JSON.parse` reproduces a parsed value
structurally, so the persisted snapshot is modelled by the value itself. -/
def docToJson (d : Doc) : Json :=
  Json.obj [("entries", Json.arr (d.entries.map entryToJson))]

/-- Decode one parsed entry back into the data model (inverse of
`entryToJson` on its image). -/
def jsonToEntry (j : Json) : Entry :=
  { id := (jsField j "id").getD Json.null
  , employee := match jsField j "employee" with
                | some (Json.str s) => s
                | _ => ""
  , day := dayString (jsField j "day")
  , timeIn := (jsField j "timeIn").getD Json.null
  , timeOut := (jsField j "timeOut").getD Json.null
  , notes := match jsField j "notes" with
             | some (Json.str s) => s
             | _ => ""
  , createdAt := (jsField j "createdAt").getD Json.null }

/-- Decode a parsed document back into the data model. -/
def jsonToDoc (j : Json) : Doc :=
  match jsGet j "entries" with
  | Except.ok (some (Json.arr l)) => { entries := l.map jsonToEntry }
  | _ => { entries := [] }

/-! ## Aggregation (src/app.js lines 84-126) -/

/-- The `dayTotal += h` addition with `NaN` (`none`) absorbing,
idealized to exact rational addition.  The program adds IEEE-754
binary64 doubles, which round after every step; the rounding-faithful
version is `addNaNF` below, and the order-sensitivity this idealization
hides is settled separately (see `aggregateF`). -/
def addNaN (a b : Option ℚ) : Option ℚ :=
  match a, b with
  | some x, some y => some (x + y)
  | _, _ => none

/-- Hours of one entry as `render` computes them:
`computeHours(entry.timeIn, entry.timeOut)`.  Calling `split` on a
non-string value throws a TypeError (`Except.error`). -/
def entryHours (e : Entry) : Except Unit (Option ℚ) :=
  match e.timeIn, e.timeOut with
  | Json.str a, Json.str b => Except.ok (computeHours a b)
  | _, _ => Except.error ()

/-- One step of the `dayTotal += h` accumulation. -/
def dayStep (acc : Except Unit (Option ℚ)) (e : Entry) : Except Unit (Option ℚ) :=
  match acc with
  | Except.error u => Except.error u
  | Except.ok t =>
    match entryHours e with
    | Except.error u => Except.error u
    | Except.ok h => Except.ok (addNaN t h)

/-- The per-day total of `render`: filter the entries of the day, then
accumulate their hours starting from `0`. -/
def dayHours (entries : List Entry) (d : String) : Except Unit (Option ℚ) :=
  (entries.filter (fun e => decide (e.day = d))).foldl dayStep (Except.ok (some 0))

/-- The day loop of `render`, producing the per-day totals in `DAYS`
order (a thrown TypeError aborts the whole render). -/
def aggregateDays (days : List String) (entries : List Entry) :
    Except Unit (List (String × Option ℚ)) :=
  match days with
  | [] => Except.ok []
  | d :: ds =>
    match dayHours entries d, aggregateDays ds entries with
    | Except.ok t, Except.ok rest => Except.ok ((d, t) :: rest)
    | Except.error u, _ => Except.error u
    | _, Except.error u => Except.error u

/-- The outcome of one `render`: the per-day totals and the weekly total. -/
structure AggResult where
  perDay : List (String × Option ℚ)
  weeklyTotal : Option ℚ
deriving DecidableEq

/-- The aggregation `render` performs: per-day totals over the seven
fixed days, and `weekly` as the sum of the day totals — with the
arithmetic idealized to exact rationals (the rounding-faithful binary64
version is `aggregateF` below). -/
def aggregate (entries : List Entry) : Except Unit AggResult :=
  match aggregateDays DAYS entries with
  | Except.error u => Except.error u
  | Except.ok pd =>
    Except.ok { perDay := pd
              , weeklyTotal := pd.foldl (fun acc p => addNaN acc p.2) (some 0) }

/-! ## Binary64 arithmetic (the number type the program computes with)

JS numbers are IEEE-754 binary64 doubles: every arithmetic operation
computes the exact result and rounds it to the nearest representable
value (ties to even).  Each finite double is an exact rational, so the
semantics is modelled by `roundDouble : ℚ → ℚ` applied after every
operation. -/

/-- Powers of two as rationals, negative exponents included. -/
def pow2 (e : ℤ) : ℚ :=
  if 0 ≤ e then ((2 ^ e.toNat : ℕ) : ℚ) else 1 / ((2 ^ (-e).toNat : ℕ) : ℚ)

/-- Floor of `log2` by repeated halving (fuel recursion so that it
evaluates by plain kernel reduction; fuel `n` suffices since halving
reaches `1` within `n` steps). -/
def log2Aux : ℕ → ℕ → ℕ
  | 0, _ => 0
  | fuel + 1, n => if n < 2 then 0 else log2Aux fuel (n / 2) + 1

/-- Floor of `log2 n` for `n ≥ 1`. -/
def natLog2 (n : ℕ) : ℕ := log2Aux n n

/-- Round a rational to the nearest IEEE-754 binary64 value (round to
nearest, ties to even), returned as the exact rational it denotes: the
magnitude is scaled into `[2^52, 2^53)` (for `a = n/d` the estimate
`log2 n - log2 d` is off by at most one, corrected by one comparison),
the scaled significand is rounded, and the sign restored.  Exponent
overflow and subnormals are not modelled: the app's values (minutes,
hours, totals) are far inside the normal range, where this is exactly
the binary64 rounding. -/
def roundDouble (q : ℚ) : ℚ :=
  if q = 0 then 0
  else
    let a := |q|
    let e0 : ℤ := (natLog2 a.num.natAbs : ℤ) - (natLog2 a.den : ℤ)
    let e : ℤ := if a < pow2 e0 then e0 - 1 else e0
    let scaled := a * pow2 (52 - e)
    let m0 : ℤ := scaled.num / (scaled.den : ℤ)
    let frac : ℚ := scaled - (m0 : ℚ)
    let m : ℤ :=
      if frac < 1 / 2 then m0
      else if 1 / 2 < frac then m0 + 1
      else if m0 % 2 = 0 then m0 else m0 + 1
    (if q < 0 then -1 else 1) * ((m : ℚ) * pow2 (e - 52))

/-- JS `Number()` as the program holds it: the decimal value rounded to
the nearest double. -/
def jsNumberF (cs : List Char) : Option ℚ :=
  (jsNumberChars cs).map roundDouble

/-- `timeToMinutes` under binary64 arithmetic: the multiplication and
addition round (exact on the integral `HH:MM` values). -/
def timeToMinutesF (t : String) : Option ℚ :=
  let parts := splitOnChar ':' t.data
  match parts.get? 0, parts.get? 1 with
  | some hs, some ms =>
    match jsNumberF hs, jsNumberF ms with
    | some hh, some mm => some (roundDouble (roundDouble (hh * 60) + mm))
    | _, _ => none
  | _, _ => none

/-- `computeHours` under binary64 arithmetic: the subtraction, the
rollover addition and the division by 60 each round — a 6-minute shift
yields the double written `0.1`, not the rational `1/10`. -/
def computeHoursF (timeIn timeOut : String) : Option ℚ :=
  match timeToMinutesF timeIn, timeToMinutesF timeOut with
  | some inMin, some outMin =>
    let diff := roundDouble (outMin - inMin)
    some (roundDouble ((if diff < 0 then roundDouble (diff + 24 * 60) else diff) / 60))
  | _, _ => none

/-- The `dayTotal += h` addition under binary64: add, then round;
`NaN` absorbs as before. -/
def addNaNF (a b : Option ℚ) : Option ℚ :=
  match a, b with
  | some x, some y => some (roundDouble (x + y))
  | _, _ => none

/-- Hours of one entry as `render` computes them, binary64 version. -/
def entryHoursF (e : Entry) : Except Unit (Option ℚ) :=
  match e.timeIn, e.timeOut with
  | Json.str a, Json.str b => Except.ok (computeHoursF a b)
  | _, _ => Except.error ()

/-- One step of the `dayTotal` accumulation, binary64 version. -/
def dayStepF (acc : Except Unit (Option ℚ)) (e : Entry) : Except Unit (Option ℚ) :=
  match acc with
  | Except.error u => Except.error u
  | Except.ok t =>
    match entryHoursF e with
    | Except.error u => Except.error u
    | Except.ok h => Except.ok (addNaNF t h)

/-- The per-day total of `render`, binary64 version. -/
def dayHoursF (entries : List Entry) (d : String) : Except Unit (Option ℚ) :=
  (entries.filter (fun e => decide (e.day = d))).foldl dayStepF (Except.ok (some 0))

/-- The day loop of `render`, binary64 version. -/
def aggregateDaysF (days : List String) (entries : List Entry) :
    Except Unit (List (String × Option ℚ)) :=
  match days with
  | [] => Except.ok []
  | d :: ds =>
    match dayHoursF entries d, aggregateDaysF ds entries with
    | Except.ok t, Except.ok rest => Except.ok ((d, t) :: rest)
    | Except.error u, _ => Except.error u
    | _, Except.error u => Except.error u

/-- The aggregation `render` performs with the arithmetic the program
actually uses: binary64 additions, which round after every step and are
therefore not associative. -/
def aggregateF (entries : List Entry) : Except Unit AggResult :=
  match aggregateDaysF DAYS entries with
  | Except.error u => Except.error u
  | Except.ok pd =>
    Except.ok { perDay := pd
              , weeklyTotal := pd.foldl (fun acc p => addNaNF acc p.2) (some 0) }

/-! ## Reachable documents -/

/-- Documents reachable from the empty document by the store operations.
The add step records that the submitted `day` came from the form's
`<select>`; that control is in `index.html`, which is not part of `src/`,
so, modelled from the spec, it only offers the seven weekday labels
(hypothesis `hday`).  The reload step is a save followed by a load of the
saved snapshot, decoded back into the data model. -/
inductive Reachable : Doc → Prop where
  | empty : Reachable { entries := [] }
  | add (d : Doc) (c : Candidate) (fid now : String) (hday : c.day ∈ DAYS)
      (h : Reachable d) : Reachable (submitAdd d c fid now).1
  | remove (d : Doc) (id : Json) (ok : Bool) (h : Reachable d) :
      Reachable (deleteEntry ok d id)
  | edit (d : Doc) (id : Json) (h : Reachable d) : Reachable (editEntry d id).1
  | importStep (d : Doc) (pr : Except Unit Json) (fids : ℕ → String) (now : String)
      (ok : Bool) (h : Reachable d) : Reachable (importMerge d pr fids now ok).1
  | clear (d : Doc) (h : Reachable d) : Reachable { entries := [] }
  | reload (d : Doc) (h : Reachable d) :
      Reachable (jsonToDoc (loadState (some (Except.ok (docToJson d)))))

/-! ## Specification-side definitions (for the refinement claims) -/

/-- The digit decomposition of a valid zero-padded `HH:MM` string. -/
def hhmmParts (s : String) : Option (ℕ × ℕ) :=
  match s.data with
  | [a, b, c, d, e] =>
    if c = ':' then
      match digitVal? a, digitVal? b, digitVal? d, digitVal? e with
      | some x1, some x2, some y1, some y2 => some (10 * x1 + x2, 10 * y1 + y2)
      | _, _, _, _ => none
    else none
  | _ => none

/-- A valid wall-clock time string per the data model: zero-padded
`HH:MM`, hours in `[0,23]`, minutes in `[0,59]`. -/
def isValidHHMM (s : String) : Bool :=
  match hhmmParts s with
  | some p => decide (p.1 < 24) && decide (p.2 < 60)
  | none => false

/-- Stated from the spec: minutes-since-midnight, `hour*60+minute`. -/
def specMinutes (s : String) : ℕ :=
  match hhmmParts s with
  | some p => p.1 * 60 + p.2
  | none => 0

/-- Stated from the spec: `(outMinutes - inMinutes)/60`, with `1440`
added before dividing when the difference is negative. -/
def specDuration (inM outM : ℕ) : ℚ :=
  if (outM : ℚ) - (inM : ℚ) < 0 then ((outM : ℚ) - (inM : ℚ) + 1440) / 60
  else ((outM : ℚ) - (inM : ℚ)) / 60

/-- Decidable equality of aggregation outcomes (used to evaluate
`aggregate` on concrete inputs). -/
instance : DecidableEq (Except Unit AggResult) := fun a b =>
  match a, b with
  | Except.error (), Except.error () => isTrue rfl
  | Except.ok x, Except.ok y =>
    match decEq x y with
    | isTrue h => isTrue (by rw [h])
    | isFalse h => isFalse (fun hh => h (by injection hh))
  | Except.error _, Except.ok _ => isFalse (fun h => Except.noConfusion h)
  | Except.ok _, Except.error _ => isFalse (fun h => Except.noConfusion h)

/-! ## Concrete inputs used by the witnesses -/

/-- A Monday 09:00-17:00 entry as `addEntry` would create it. -/
def wEntryA : Entry :=
  { id := Json.str "a", employee := "Ann", day := "Monday"
  , timeIn := Json.str "09:00", timeOut := Json.str "17:00"
  , notes := "", createdAt := Json.str "t" }

/-- A Tuesday 10:00-12:00 entry as `addEntry` would create it. -/
def wEntryB : Entry :=
  { id := Json.str "b", employee := "Bob", day := "Tuesday"
  , timeIn := Json.str "10:00", timeOut := Json.str "12:00"
  , notes := "", createdAt := Json.str "t" }

/-- A 6-minute Monday shift: its duration is the double written `0.1`. -/
def fEntry6 : Entry :=
  { id := Json.str "f1", employee := "Ann", day := "Monday"
  , timeIn := Json.str "00:00", timeOut := Json.str "00:06"
  , notes := "", createdAt := Json.str "t" }

/-- A 12-minute Monday shift: its duration is the double written `0.2`. -/
def fEntry12 : Entry :=
  { id := Json.str "f2", employee := "Ann", day := "Monday"
  , timeIn := Json.str "00:00", timeOut := Json.str "00:12"
  , notes := "", createdAt := Json.str "t" }

/-- An 18-minute Monday shift: its duration is the double written `0.3`. -/
def fEntry18 : Entry :=
  { id := Json.str "f3", employee := "Ann", day := "Monday"
  , timeIn := Json.str "00:00", timeOut := Json.str "00:18"
  , notes := "", createdAt := Json.str "t" }

/-- An import candidate that passes the filter (`employee` is a truthy
array) but whose `String()`-coerced employee is the empty string. -/
def badImportItem : Json :=
  Json.obj [ ("day", Json.str "Monday"), ("employee", Json.arr [])
           , ("timeIn", Json.str "09:00"), ("timeOut", Json.str "17:00") ]

/-- The store state after importing `badImportItem` into the empty
document. -/
def badImportDoc : Doc :=
  (importMerge { entries := [] }
    (Except.ok (Json.obj [("entries", Json.arr [badImportItem])]))
    (fun _ => "id0") "t0" true).1

/-- A well-formed import candidate. -/
def goodItem : Json :=
  Json.obj [ ("day", Json.str "Monday"), ("employee", Json.str "Cara")
           , ("timeIn", Json.str "08:00"), ("timeOut", Json.str "16:00") ]

/-- An import candidate with the invalid day `"Funday"`. -/
def fundayItem : Json :=
  Json.obj [ ("day", Json.str "Funday"), ("employee", Json.str "Xan")
           , ("timeIn", Json.str "08:00"), ("timeOut", Json.str "16:00") ]

/-- A parsed import file holding `goodItem` and `fundayItem`. -/
def parsedW : Json :=
  Json.obj [("entries", Json.arr [goodItem, fundayItem])]

/-- The entry `submitAdd` appends for Ann's Monday shift. -/
def wEntryAnn : Entry :=
  { id := Json.str "idA", employee := "Ann", day := "Monday"
  , timeIn := Json.str "09:00", timeOut := Json.str "17:00"
  , notes := "", createdAt := Json.str "tA" }

/-- The store state after Ann's Monday shift is submitted. -/
def addedDoc : Doc :=
  (submitAdd { entries := [] }
    { employee := "Ann", day := "Monday", timeIn := "09:00"
    , timeOut := "17:00", notes := "" } "idA" "tA").1

/-! ## Character and string lemmas -/

theorem digitVal_facts {c : Char} {x : ℕ} (h : digitVal? c = some x) :
    '0' ≤ c ∧ c ≤ '9' := by
  unfold digitVal? at h
  split at h
  · rename_i hc
    simpa using hc
  · simp at h

theorem not_space_of_digit {c : Char} (h1 : '0' ≤ c) (h2 : c ≤ '9') :
    isJsSpace c = false := by
  cases hsp : isJsSpace c
  · rfl
  · exfalso
    unfold isJsSpace at hsp
    simp only [Bool.or_eq_true, decide_eq_true_eq] at hsp
    rcases hsp with ((((rfl | rfl) | rfl) | rfl) | rfl) | rfl <;> revert h2 <;> revert h1 <;>
      decide

theorem digit_ne_seps {c : Char} (h1 : '0' ≤ c) (h2 : c ≤ '9') :
    c ≠ ':' ∧ c ≠ '.' ∧ c ≠ '-' ∧ c ≠ '+' := by
  refine ⟨?_, ?_, ?_, ?_⟩ <;> (rintro rfl; revert h2; revert h1; decide)

theorem dropWhile_eq_self_of_false {p : Char → Bool} {l : List Char}
    (h : ∀ c ∈ l, p c = false) : l.dropWhile p = l := by
  cases l with
  | nil => rfl
  | cons a as => simp [List.dropWhile_cons, h a (List.mem_cons_self a as)]

theorem trimChars_eq_self {l : List Char} (h : ∀ c ∈ l, isJsSpace c = false) :
    trimChars l = l := by
  unfold trimChars
  rw [dropWhile_eq_self_of_false h,
    dropWhile_eq_self_of_false (fun c hc => h c (List.mem_reverse.mp hc)),
    List.reverse_reverse]

theorem splitOnChar_no_sep {sep : Char} {l : List Char} (h : ∀ c ∈ l, c ≠ sep) :
    splitOnChar sep l = [l] := by
  induction l with
  | nil => rfl
  | cons a as ih =>
    have ha := h a (List.mem_cons_self a as)
    have hr := ih (fun c hc => h c (List.mem_cons.mpr (Or.inr hc)))
    simp [splitOnChar, hr, ha]

theorem splitOnChar_append_sep {sep : Char} {l1 l2 : List Char}
    (h : ∀ c ∈ l1, c ≠ sep) :
    splitOnChar sep (l1 ++ sep :: l2) = l1 :: splitOnChar sep l2 := by
  induction l1 with
  | nil => simp [splitOnChar]
  | cons a as ih =>
    have ha := h a (List.mem_cons_self a as)
    have hr := ih (fun c hc => h c (List.mem_cons.mpr (Or.inr hc)))
    simp [splitOnChar, hr, ha]

theorem digitsToNat_two {a b : Char} {x y : ℕ}
    (ha : digitVal? a = some x) (hb : digitVal? b = some y) :
    digitsToNat [a, b] = some (10 * x + y) := by
  simp only [digitsToNat, digitsAux, ha, hb]
  norm_num [Nat.mul_comm]

theorem jsNumberChars_two_digits {a b : Char} {x y : ℕ}
    (ha : digitVal? a = some x) (hb : digitVal? b = some y) :
    jsNumberChars [a, b] = some ((10 * x + y : ℕ) : ℚ) := by
  obtain ⟨ha1, ha2⟩ := digitVal_facts ha
  obtain ⟨hb1, hb2⟩ := digitVal_facts hb
  have hsp : ∀ c ∈ [a, b], isJsSpace c = false := by
    intro c hc
    rcases List.mem_cons.mp hc with rfl | hc
    · exact not_space_of_digit ha1 ha2
    · rcases List.mem_cons.mp hc with rfl | hc
      · exact not_space_of_digit hb1 hb2
      · simp at hc
  have htrim : trimChars [a, b] = [a, b] := trimChars_eq_self hsp
  have hsplit : splitOnChar '.' [a, b] = [[a, b]] := by
    apply splitOnChar_no_sep
    intro c hc
    rcases List.mem_cons.mp hc with rfl | hc
    · exact (digit_ne_seps ha1 ha2).2.1
    · rcases List.mem_cons.mp hc with rfl | hc
      · exact (digit_ne_seps hb1 hb2).2.1
      · simp at hc
  have haminus : a ≠ '-' := (digit_ne_seps ha1 ha2).2.2.1
  have haplus : a ≠ '+' := (digit_ne_seps ha1 ha2).2.2.2
  simp [jsNumberChars, htrim, hsplit, haminus, haplus, digitsToNat_two ha hb]

theorem timeToMinutes_of_hhmm {s : String} {p : ℕ × ℕ}
    (h : hhmmParts s = some p) :
    timeToMinutes s = some (((p.1 * 60 + p.2 : ℕ) : ℚ)) := by
  unfold hhmmParts at h
  rcases hdata : s.data with _ | ⟨a, _ | ⟨b, _ | ⟨c, _ | ⟨d, _ | ⟨e, _ | ⟨f, tl⟩⟩⟩⟩⟩⟩ <;>
    rw [hdata] at h
  case nil => simp at h
  case cons.nil => simp at h
  case cons.cons.nil => simp at h
  case cons.cons.cons.nil => simp at h
  case cons.cons.cons.cons.nil => simp at h
  case cons.cons.cons.cons.cons.cons => simp at h
  case cons.cons.cons.cons.cons.nil =>
  dsimp only at h
  by_cases hc : c = ':'
  case neg => rw [if_neg hc] at h; simp at h
  subst hc
  rw [if_pos rfl] at h
  rcases hva : digitVal? a with _ | x1 <;>
    rcases hvb : digitVal? b with _ | x2 <;>
      rcases hvd : digitVal? d with _ | y1 <;>
        rcases hve : digitVal? e with _ | y2 <;>
          rw [hva, hvb, hvd, hve] at h <;> dsimp only at h
  all_goals try exact Option.noConfusion h
  rw [Option.some.injEq] at h
  obtain rfl := h.symm
  obtain ⟨ha1, ha2⟩ := digitVal_facts hva
  obtain ⟨hb1, hb2⟩ := digitVal_facts hvb
  obtain ⟨hd1, hd2⟩ := digitVal_facts hvd
  obtain ⟨he1, he2⟩ := digitVal_facts hve
  have hne : ∀ ch ∈ [a, b], ch ≠ ':' := by
    intro ch hch
    rcases List.mem_cons.mp hch with rfl | hch
    · exact (digit_ne_seps ha1 ha2).1
    · rcases List.mem_cons.mp hch with rfl | hch
      · exact (digit_ne_seps hb1 hb2).1
      · simp at hch
  have hde : ∀ ch ∈ [d, e], ch ≠ ':' := by
    intro ch hch
    rcases List.mem_cons.mp hch with rfl | hch
    · exact (digit_ne_seps hd1 hd2).1
    · rcases List.mem_cons.mp hch with rfl | hch
      · exact (digit_ne_seps he1 he2).1
      · simp at hch
  have hsplit : splitOnChar ':' (a :: b :: ':' :: d :: e :: []) = [a, b] :: [[d, e]] := by
    have h1 : splitOnChar ':' ([a, b] ++ ':' :: [d, e])
        = [a, b] :: splitOnChar ':' [d, e] := splitOnChar_append_sep hne
    have h2 := splitOnChar_no_sep hde
    rw [h2] at h1
    simpa using h1
  unfold timeToMinutes
  rw [hdata]
  simp only [hsplit, List.get?, jsNumberChars_two_digits hva hvb,
    jsNumberChars_two_digits hvd hve, Option.some.injEq]
  push_cast
  ring

theorem timeToMinutes_valid {s : String} (hs : isValidHHMM s = true) :
    timeToMinutes s = some ((specMinutes s : ℚ)) := by
  unfold isValidHHMM at hs
  rcases hp : hhmmParts s with _ | p
  · rw [hp] at hs; simp at hs
  · rw [timeToMinutes_of_hhmm hp]
    unfold specMinutes
    rw [hp]

/-! ## C1: duration formula -/

/-- C1: for every pair of valid `HH:MM` strings, `computeHours` equals
the spec formula `(outMinutes - inMinutes)/60` on minutes-since-midnight
values, with `1440` added first when the difference is negative; in
particular `computeHours "23:00" "01:00" = 2` and the duration of equal
times is `0`. -/
theorem computeHours_spec :
    (∀ s t : String, isValidHHMM s = true → isValidHHMM t = true →
      computeHours s t = some (specDuration (specMinutes s) (specMinutes t)))
    ∧ computeHours "23:00" "01:00" = some 2
    ∧ (∀ s : String, isValidHHMM s = true → computeHours s s = some 0) := by
  refine ⟨?_, ?_, ?_⟩
  · intro s t hs ht
    unfold computeHours specDuration
    rw [timeToMinutes_valid hs, timeToMinutes_valid ht]
    dsimp only
    by_cases hlt : (specMinutes t : ℚ) - (specMinutes s : ℚ) < 0
    · rw [if_pos hlt, if_pos hlt]
      norm_num
    · rw [if_neg hlt, if_neg hlt]
  · with_unfolding_all decide
  · intro s hs
    unfold computeHours
    rw [timeToMinutes_valid hs]
    dsimp only
    norm_num

/-- Witness for C1 on the 09:00-17:00 shift (an ordinary 8-hour day). -/
theorem computeHours_spec_witness :
    isValidHHMM "09:00" = true ∧ isValidHHMM "17:00" = true ∧
    computeHours "09:00" "17:00" =
      some (specDuration (specMinutes "09:00") (specMinutes "17:00")) ∧
    specDuration (specMinutes "09:00") (specMinutes "17:00") = 8 := by
  refine ⟨by decide, by decide,
    computeHours_spec.1 "09:00" "17:00" (by decide) (by decide), ?_⟩
  with_unfolding_all decide

/-! ## C5: load degrades malformed persistence to the empty document -/

theorem loadState_of_ok (j : Json) :
    loadState (some (Except.ok j)) = if hasValidEntries j then j else emptyDocJson := by
  unfold loadState hasValidEntries
  dsimp only
  rcases hg : jsGet j "entries" with u | ent
  · rfl
  · dsimp only
    cases ht : truthyOpt ent <;> cases ha : isArr ent <;> simp [ht, ha]

/-- C5: `loadState` returns the empty document `{ entries: [] }` whenever
no persisted value exists, the persisted value fails to parse, or the
parsed value lacks a valid `entries` array; and it is a total function
(the `try/catch` lets nothing escape), always returning either the empty
document or the parsed value itself. -/
theorem loadState_spec (raw : Option (Except Unit Json)) :
    ((raw = none ∨ raw = some (Except.error ()) ∨
        (∀ j, raw = some (Except.ok j) → hasValidEntries j = false)) →
      loadState raw = emptyDocJson)
    ∧ (loadState raw = emptyDocJson ∨
        ∃ j, raw = some (Except.ok j) ∧ hasValidEntries j = true ∧ loadState raw = j) := by
  constructor
  · intro h
    rcases raw with _ | r
    · rfl
    · rcases r with u | j
      · cases u; rfl
      · have hj : hasValidEntries j = false := by
          rcases h with h | h | h
          · exact absurd h (by simp)
          · exact absurd h (by simp)
          · exact h j rfl
        rw [loadState_of_ok, hj]
        simp
  · rcases raw with _ | r
    · exact Or.inl rfl
    · rcases r with u | j
      · exact Or.inl (by cases u; rfl)
      · by_cases hv : hasValidEntries j = true
        · exact Or.inr ⟨j, rfl, hv, by rw [loadState_of_ok, if_pos hv]⟩
        · exact Or.inl (by rw [loadState_of_ok, if_neg hv])

/-- Witness for C5: a persisted value `JSON.parse` throws on loads as the
empty document. -/
theorem loadState_spec_witness :
    loadState (some (Except.error ())) = emptyDocJson :=
  (loadState_spec (some (Except.error ()))).1 (Or.inr (Or.inl rfl))

/-! ## C6: add validation -/

/-- C6: a submitted candidate whose employee name trims to empty, or
whose time-in or time-out is missing, is rejected: an alert is reported,
no entry is appended, and the document (hence its entry count) is
unchanged. -/
theorem submitAdd_invalid (doc : Doc) (c : Candidate) (fid now : String)
    (h : jsTrim c.employee = "" ∨ c.timeIn = "" ∨ c.timeOut = "") :
    (submitAdd doc c fid now).1 = doc
    ∧ ((submitAdd doc c fid now).2).isSome = true
    ∧ (submitAdd doc c fid now).1.entries.length = doc.entries.length := by
  unfold submitAdd
  by_cases h1 : jsTrim c.employee = ""
  · rw [if_pos h1]
    exact ⟨rfl, rfl, rfl⟩
  · rw [if_neg h1]
    have h2 : c.timeIn = "" ∨ c.timeOut = "" := by tauto
    rw [if_pos h2]
    exact ⟨rfl, rfl, rfl⟩

/-- Witness for C6: an all-whitespace employee name is rejected and the
document stays empty. -/
theorem submitAdd_invalid_witness :
    jsTrim "   " = "" ∧
    (submitAdd { entries := [] }
      { employee := "   ", day := "Monday", timeIn := "09:00"
      , timeOut := "17:00", notes := "" } "id0" "t0").1 = { entries := [] } :=
  ⟨by decide, (submitAdd_invalid { entries := [] } _ "id0" "t0" (Or.inl (by decide))).1⟩

/-! ## C9, C10: delete -/

/-- C9: confirmed deletion of an id that occurs exactly once removes
that entry and keeps every other entry in order; deleting an id no entry
carries is a harmless no-op (the function has no error channel at all). -/
theorem deleteEntry_spec (doc : Doc) (id : Json) :
    ((∀ e ∈ doc.entries, jsStrictEq e.id id = false) →
      deleteEntry true doc id = doc)
    ∧ (∀ l1 en l2, doc.entries = l1 ++ en :: l2 → jsStrictEq en.id id = true →
        (∀ e ∈ l1, jsStrictEq e.id id = false) →
        (∀ e ∈ l2, jsStrictEq e.id id = false) →
        (deleteEntry true doc id).entries = l1 ++ l2) := by
  obtain ⟨es⟩ := doc
  constructor
  · intro h
    unfold deleteEntry
    rw [if_pos rfl]
    congr 1
    exact List.filter_eq_self.mpr (fun a ha => by simp [h a ha])
  · intro l1 en l2 hsplit hid h1 h2
    dsimp only at hsplit
    subst hsplit
    unfold deleteEntry
    rw [if_pos rfl]
    dsimp only
    rw [List.filter_append, List.filter_cons]
    rw [List.filter_eq_self.mpr (fun a ha => by simp [h1 a ha]),
      List.filter_eq_self.mpr (fun a ha => by simp [h2 a ha])]
    simp [hid]

/-- Witness for C9: deleting an absent id is a no-op; deleting the id of
the second of two entries keeps exactly the first. -/
theorem deleteEntry_spec_witness :
    deleteEntry true { entries := [wEntryB] } (Json.str "a") = { entries := [wEntryB] }
    ∧ (deleteEntry true { entries := [wEntryA, wEntryB] } (Json.str "b")).entries
        = [wEntryA] := by
  constructor
  · refine (deleteEntry_spec { entries := [wEntryB] } (Json.str "a")).1 ?_
    intro e he
    rw [List.mem_singleton] at he
    subst he
    decide
  · have h := (deleteEntry_spec { entries := [wEntryA, wEntryB] } (Json.str "b")).2
      [wEntryA] wEntryB [] rfl (by decide) ?_ ?_
    · simpa using h
    · intro e he
      rw [List.mem_singleton] at he
      subst he
      decide
    · intro e he
      simp at he

/-- C10: `deleteEntry` keeps exactly the entries whose id differs
(`===`) from the given one; in particular, when several entries share an
id (reachable through import, which never deduplicates), one delete
removes every one of them: no matching entry survives. -/
theorem deleteEntry_filters_all (doc : Doc) (id : Json) :
    (∀ e, e ∈ (deleteEntry true doc id).entries ↔
      e ∈ doc.entries ∧ jsStrictEq e.id id = false)
    ∧ (deleteEntry true doc id).entries.countP (fun e => jsStrictEq e.id id) = 0 := by
  constructor
  · intro e
    unfold deleteEntry
    rw [if_pos rfl]
    simp [List.mem_filter]
  · rw [List.countP_eq_zero]
    intro e he
    unfold deleteEntry at he
    rw [if_pos rfl] at he
    dsimp only at he
    have := (List.mem_filter.mp he).2
    simp at this
    simp [this]

/-! ## C8: edit -/

/-- C8: when an entry with the given id exists, `editEntry` returns a
draft carrying that (first matching) entry's employee, day, timeIn,
timeOut and notes, and the returned document no longer contains any
entry with that id (the removal happens at edit time, before any
resubmission); when no entry matches, the document is returned unchanged
with no draft. -/
theorem editEntry_spec (doc : Doc) (id : Json) :
    ((∀ e ∈ doc.entries, jsStrictEq e.id id = false) →
      editEntry doc id = (doc, none))
    ∧ (∀ en, doc.entries.find? (fun e => jsStrictEq e.id id) = some en →
        (editEntry doc id).2 =
          some { employee := en.employee, day := en.day
               , timeIn := jsToString en.timeIn, timeOut := jsToString en.timeOut
               , notes := en.notes }
        ∧ (∀ e, e ∈ (editEntry doc id).1.entries ↔
            e ∈ doc.entries ∧ jsStrictEq e.id id = false)) := by
  constructor
  · intro h
    unfold editEntry
    rw [List.find?_eq_none.mpr (fun x hx => by simp [h x hx])]
  · intro en hfind
    unfold editEntry
    rw [hfind]
    constructor
    · dsimp only
      by_cases hn : en.notes = ""
      · simp [hn]
      · simp [hn]
    · intro e
      dsimp only
      simp [List.mem_filter]

/-- Witness for C8: editing the only entry empties the document and
prefills the draft from it. -/
theorem editEntry_spec_witness :
    (editEntry { entries := [wEntryA] } (Json.str "a")).2 =
      some { employee := "Ann", day := "Monday", timeIn := "09:00"
           , timeOut := "17:00", notes := "" }
    ∧ (wEntryA ∈ (editEntry { entries := [wEntryA] } (Json.str "a")).1.entries ↔
        wEntryA ∈ [wEntryA] ∧ jsStrictEq wEntryA.id (Json.str "a") = false) := by
  have h := (editEntry_spec { entries := [wEntryA] } (Json.str "a")).2 wEntryA rfl
  exact ⟨h.1, h.2 wEntryA⟩

/-! ## C2: import is additive and filtered -/

theorem importValid_facts {x : Json} (h : importValid x = true) :
    dayString (jsField x "day") ∈ DAYS
    ∧ truthyOpt (jsField x "timeIn") = true
    ∧ truthyOpt (jsField x "timeOut") = true := by
  unfold importValid at h
  simp only [Bool.and_eq_true] at h
  obtain ⟨⟨⟨⟨htr, hday⟩, hemp⟩, hin⟩, hout⟩ := h
  refine ⟨?_, hin, hout⟩
  rcases hf : jsField x "day" with _ | v
  · rw [hf] at hday
    dsimp only at hday
    exact absurd hday (by simp)
  · rcases v with _ | b | q | s | el | fl <;> rw [hf] at hday <;> dsimp only at hday <;>
      try exact Bool.noConfusion hday
    dsimp only [dayString]
    exact List.elem_iff.mp hday

theorem truthyOpt_getD {o : Option Json} (h : truthyOpt o = true) :
    truthy (o.getD Json.null) = true := by
  rcases o with _ | v
  · simp [truthyOpt] at h
  · simpa [truthyOpt] using h

theorem cleanListAux_length (fids : ℕ → String) (now : String) :
    ∀ (i : ℕ) (l : List Json), (cleanListAux fids now i l).length = l.length := by
  intro i l
  induction l generalizing i with
  | nil => rfl
  | cons x xs ih => simp [cleanListAux, ih]

theorem cleanListAux_mem {fids : ℕ → String} {now : String} :
    ∀ {i : ℕ} {l : List Json} {e : Entry}, e ∈ cleanListAux fids now i l →
      ∃ x ∈ l, ∃ j, e = cleanEntry (fids j) now x := by
  intro i l
  induction l generalizing i with
  | nil => intro e he; simp [cleanListAux] at he
  | cons x xs ih =>
    intro e he
    unfold cleanListAux at he
    rcases List.mem_cons.mp he with rfl | he
    · exact ⟨x, List.mem_cons_self x xs, i, rfl⟩
    · obtain ⟨y, hy, j, rfl⟩ := ih he
      exact ⟨y, List.mem_cons.mpr (Or.inr hy), j, rfl⟩

theorem cleanList_invariant (items : List Json) (fids : ℕ → String) (now : String) :
    ∀ e ∈ cleanList items fids now,
      e.day ∈ DAYS ∧ truthy e.timeIn = true ∧ truthy e.timeOut = true := by
  intro e he
  obtain ⟨x, hx, j, rfl⟩ := cleanListAux_mem he
  have hv : importValid x = true := (List.mem_filter.mp hx).2
  obtain ⟨hday, hin, hout⟩ := importValid_facts hv
  exact ⟨hday, truthyOpt_getD hin, truthyOpt_getD hout⟩

theorem importValid_funday {x : Json} (h : jsField x "day" = some (Json.str "Funday")) :
    importValid x = false := by
  unfold importValid
  rw [h]
  dsimp only
  have hf : DAYS.contains "Funday" = false := by decide
  rw [hf]
  simp

theorem importMerge_ok_arr (doc : Doc) (parsed : Json) (items : List Json)
    (fids : ℕ → String) (now : String)
    (h : jsGet parsed "entries" = Except.ok (some (Json.arr items))) :
    importMerge doc (Except.ok parsed) fids now true =
      ({ entries := doc.entries ++ cleanList items fids now },
        (cleanList items fids now).length) := by
  unfold importMerge
  dsimp only
  rw [h]
  simp [truthyOpt, truthy, isArr]

/-- C2: on a parsed import whose `entries` is an array, the merge leaves
every existing entry unchanged in its original position (the old entries
are exactly the prefix), appends exactly the sanitized image of the
candidates that pass the day/employee/timeIn/timeOut filter (so every
appended entry carries one of the seven day labels, and a `"Funday"`
candidate is never appended), never deduplicates against existing ids
(the count and the appended suffix do not depend on `doc` at all), and
reports the number of entries appended. -/
theorem importMerge_spec (doc : Doc) (parsed : Json) (items : List Json)
    (fids : ℕ → String) (now : String)
    (h : jsGet parsed "entries" = Except.ok (some (Json.arr items))) :
    (importMerge doc (Except.ok parsed) fids now true).1.entries.take doc.entries.length
        = doc.entries
    ∧ (importMerge doc (Except.ok parsed) fids now true).1.entries.drop doc.entries.length
        = cleanList items fids now
    ∧ (importMerge doc (Except.ok parsed) fids now true).2
        = (items.filter importValid).length
    ∧ (∀ e ∈ cleanList items fids now, e.day ∈ DAYS)
    ∧ (∀ x ∈ items, jsField x "day" = some (Json.str "Funday") →
        importValid x = false) := by
  rw [importMerge_ok_arr doc parsed items fids now h]
  refine ⟨List.take_left doc.entries _, List.drop_left doc.entries _, ?_, ?_, ?_⟩
  · exact cleanListAux_length fids now 0 (items.filter importValid)
  · exact fun e he => (cleanList_invariant items fids now e he).1
  · exact fun x _ hx => importValid_funday hx

/-- Witness for C2: importing a valid Monday candidate together with a
`"Funday"` candidate into a one-entry document imports exactly one entry
and keeps the existing entry as the prefix. -/
theorem importMerge_spec_witness :
    (importMerge { entries := [wEntryB] } (Except.ok parsedW) (fun _ => "f") "tw" true).2 = 1
    ∧ (importMerge { entries := [wEntryB] }
        (Except.ok parsedW) (fun _ => "f") "tw" true).1.entries.take 1 = [wEntryB] := by
  have h := importMerge_spec { entries := [wEntryB] } parsedW [goodItem, fundayItem]
    (fun _ => "f") "tw" rfl
  exact ⟨h.2.2.1.trans (by decide), h.1⟩

/-! ## C3: save/load round trip -/

theorem jsGet_docToJson (d : Doc) :
    jsGet (docToJson d) "entries" =
      Except.ok (some (Json.arr (d.entries.map entryToJson))) := by
  rfl

theorem hasValidEntries_docToJson (d : Doc) :
    hasValidEntries (docToJson d) = true := by
  unfold hasValidEntries
  rw [jsGet_docToJson]
  rfl

theorem loadState_docToJson (d : Doc) :
    loadState (some (Except.ok (docToJson d))) = docToJson d := by
  rw [loadState_of_ok, if_pos (hasValidEntries_docToJson d)]

theorem jsonToEntry_entryToJson (e : Entry) : jsonToEntry (entryToJson e) = e := by
  obtain ⟨i, emp, day, tin, tout, nts, cr⟩ := e
  rfl

theorem jsonToDoc_docToJson (d : Doc) : jsonToDoc (docToJson d) = d := by
  obtain ⟨es⟩ := d
  unfold jsonToDoc
  rw [jsGet_docToJson]
  dsimp only
  congr 1
  rw [List.map_map]
  have h : jsonToEntry ∘ entryToJson = id := funext jsonToEntry_entryToJson
  rw [h, List.map_id]

/-- C3: for every reachable document, saving (`JSON.stringify` of
`{ entries: [...] }`, whose parse is the value `docToJson d`) and then
loading returns that snapshot unchanged, and decoding it yields the very
same document: the same entries in the same order with the same fields. -/
theorem save_load_roundtrip (d : Doc) (_h : Reachable d) :
    loadState (some (Except.ok (docToJson d))) = docToJson d
    ∧ jsonToDoc (docToJson d) = d :=
  ⟨loadState_docToJson d, jsonToDoc_docToJson d⟩

/-- Witness for C3 at the empty document. -/
theorem save_load_roundtrip_witness :
    loadState (some (Except.ok (docToJson { entries := [] }))) =
      docToJson { entries := [] }
    ∧ jsonToDoc (docToJson { entries := [] }) = { entries := [] } :=
  save_load_roundtrip { entries := [] } Reachable.empty

/-! ## C4: aggregation is order-independent -/

theorem addNaN_right_comm (t a b : Option ℚ) :
    addNaN (addNaN t a) b = addNaN (addNaN t b) a := by
  rcases t with _ | x <;> rcases a with _ | y <;> rcases b with _ | z <;>
    simp [addNaN] <;> ring

theorem dayStep_right_comm (acc : Except Unit (Option ℚ)) (a b : Entry) :
    dayStep (dayStep acc a) b = dayStep (dayStep acc b) a := by
  rcases acc with u | t
  · rfl
  · unfold dayStep
    rcases ha : entryHours a with ua | ha' <;> rcases hb : entryHours b with ub | hb' <;>
      dsimp only
    rw [addNaN_right_comm]

theorem dayHours_perm {l1 l2 : List Entry} (h : l1.Perm l2) (d : String) :
    dayHours l1 d = dayHours l2 d :=
  List.Perm.foldl_eq' (h.filter _)
    (fun x _ y _ z => dayStep_right_comm z x y) (Except.ok (some 0))

theorem aggregateDays_perm {l1 l2 : List Entry} (h : l1.Perm l2) (days : List String) :
    aggregateDays days l1 = aggregateDays days l2 := by
  induction days with
  | nil => rfl
  | cons d ds ih =>
    unfold aggregateDays
    rw [dayHours_perm h d, ih]

theorem aggregate_perm_exact (l1 l2 : List Entry) (h : l1.Perm l2) :
    aggregate l1 = aggregate l2 := by
  unfold aggregate
  rw [aggregateDays_perm h DAYS]

theorem dayHoursF_congr {l1 l2 : List Entry} (d : String)
    (h : l1.filter (fun e => decide (e.day = d))
        = l2.filter (fun e => decide (e.day = d))) :
    dayHoursF l1 d = dayHoursF l2 d := by
  unfold dayHoursF
  rw [h]

theorem aggregateDaysF_congr {l1 l2 : List Entry} (days : List String)
    (h : ∀ d, l1.filter (fun e => decide (e.day = d))
        = l2.filter (fun e => decide (e.day = d))) :
    aggregateDaysF days l1 = aggregateDaysF days l2 := by
  induction days with
  | nil => rfl
  | cons d ds ih =>
    unfold aggregateDaysF
    rw [dayHoursF_congr d (h d), ih]

/-- C4 counterexample: under the binary64 arithmetic the program
actually computes with, aggregation is not permutation-invariant.  The
Monday shifts of 6, 12 and 18 minutes have durations `0.1`, `0.2` and
`0.3` as doubles; folding them as the day loop does gives
`0.1 + 0.2 + 0.3 = 0.6000000000000001` in one order and `0.6` in the
reversed order, so the permuted list changes both the Monday `perDay`
total and `weeklyTotal`. -/
theorem aggregateF_perm_counterexample :
    ([fEntry18, fEntry12, fEntry6] : List Entry).Perm [fEntry6, fEntry12, fEntry18]
    ∧ aggregateF [fEntry6, fEntry12, fEntry18]
        ≠ aggregateF [fEntry18, fEntry12, fEntry6] := by
  constructor
  · exact List.reverse_perm [fEntry6, fEntry12, fEntry18]
  · with_unfolding_all decide

/-- C4 amended: with the arithmetic idealized to exact rationals,
`aggregate` is invariant under every permutation of the entries; under
the program's binary64 arithmetic, the aggregation is invariant under
exactly the reorderings that leave each day's filtered subsequence
unchanged (such as interleaving entries of different days differently),
while reordering entries within one day can change the last ulp of the
totals, as the counterexample shows. -/
theorem aggregate_perm_amended :
    (∀ l1 l2 : List Entry, l1.Perm l2 → aggregate l1 = aggregate l2)
    ∧ (∀ l1 l2 : List Entry,
        (∀ d, l1.filter (fun e => decide (e.day = d))
            = l2.filter (fun e => decide (e.day = d))) →
        aggregateF l1 = aggregateF l2) := by
  constructor
  · exact aggregate_perm_exact
  · intro l1 l2 h
    unfold aggregateF
    rw [aggregateDaysF_congr DAYS h]

/-- Witness for the amended C4: swapping a Monday and a Tuesday entry
(a permutation that keeps each day's subsequence) changes neither the
exact nor the binary64 aggregation, and the exact value is the expected
one (8 Monday hours, 2 Tuesday hours, 10 weekly). -/
theorem aggregate_perm_amended_witness :
    aggregate [wEntryA, wEntryB] = aggregate [wEntryB, wEntryA]
    ∧ aggregateF [wEntryA, wEntryB] = aggregateF [wEntryB, wEntryA]
    ∧ aggregate [wEntryA, wEntryB] =
        Except.ok
          { perDay := [ ("Monday", some 8), ("Tuesday", some 2)
                      , ("Wednesday", some 0), ("Thursday", some 0)
                      , ("Friday", some 0), ("Saturday", some 0)
                      , ("Sunday", some 0) ]
          , weeklyTotal := some 10 } := by
  refine ⟨aggregate_perm_amended.1 _ _ (List.Perm.swap wEntryB wEntryA []),
    aggregate_perm_amended.2 _ _ ?_, ?_⟩
  · intro d
    by_cases hm : wEntryA.day = d <;> by_cases ht : wEntryB.day = d
    · exfalso
      have hc : wEntryA.day = wEntryB.day := hm.trans ht.symm
      exact absurd hc (by decide)
    all_goals simp [List.filter_cons, hm, ht]
  · with_unfolding_all decide

/-! ## C7: the store invariant -/

theorem submitAdd_cases (doc : Doc) (c : Candidate) (fid now : String) :
    (submitAdd doc c fid now).1 = doc
    ∨ ((submitAdd doc c fid now).1 = addEntry doc c fid now
        ∧ ¬c.timeIn = "" ∧ ¬c.timeOut = "") := by
  unfold submitAdd
  by_cases h1 : jsTrim c.employee = ""
  · rw [if_pos h1]; exact Or.inl rfl
  · rw [if_neg h1]
    by_cases h2 : c.timeIn = "" ∨ c.timeOut = ""
    · rw [if_pos h2]; exact Or.inl rfl
    · rw [if_neg h2]
      exact Or.inr ⟨rfl, (not_or.mp h2).1, (not_or.mp h2).2⟩

theorem deleteEntry_cases (ok : Bool) (doc : Doc) (id : Json) :
    deleteEntry ok doc id = doc
    ∨ (deleteEntry ok doc id).entries
        = doc.entries.filter (fun e => !jsStrictEq e.id id) := by
  unfold deleteEntry
  cases ok
  · exact Or.inl rfl
  · exact Or.inr rfl

theorem editEntry_fst_cases (doc : Doc) (id : Json) :
    (editEntry doc id).1 = doc
    ∨ (editEntry doc id).1.entries
        = doc.entries.filter (fun e => !jsStrictEq e.id id) := by
  unfold editEntry
  split
  · exact Or.inl rfl
  · exact Or.inr rfl

theorem importMerge_cases (doc : Doc) (pr : Except Unit Json) (fids : ℕ → String)
    (now : String) (ok : Bool) :
    (importMerge doc pr fids now ok).1 = doc
    ∨ ∃ items, (importMerge doc pr fids now ok).1.entries
        = doc.entries ++ cleanList items fids now := by
  unfold importMerge
  rcases pr with u | parsed
  · exact Or.inl rfl
  · dsimp only
    rcases hg : jsGet parsed "entries" with u | ent
    · exact Or.inl rfl
    · dsimp only
      split
      · exact Or.inl rfl
      · split
        all_goals try exact Or.inl rfl
        cases ok
        · exact Or.inl rfl
        · exact Or.inr ⟨_, rfl⟩

/-- C7 counterexample: the claimed invariant fails on the code.  The
filter on import only checks truthiness, so a candidate whose `employee`
is the (truthy) empty array passes, and `String([])` is the empty string:
bringing `badImportItem` into the empty document reaches a state
whose single entry has `employee = ""`, not a non-empty string. -/
theorem store_invariant_counterexample :
    Reachable badImportDoc
    ∧ badImportDoc.entries.map Entry.employee = [""] := by
  constructor
  · exact Reachable.importStep { entries := [] } _ _ _ _ Reachable.empty
  · decide

/-- C7 amended: for every reachable store state, every entry's `day` is
one of the seven weekday labels, and its `timeIn` and `timeOut` are
truthy values (non-empty when strings).  The original claim's stronger
form — `employee`, `timeIn`, `timeOut` always non-empty strings — fails:
the import stores raw truthy `timeIn`/`timeOut` values (possibly
non-strings) and can coerce an array-valued `employee` to `""`. -/
theorem store_invariant_amended (d : Doc) (h : Reachable d) :
    ∀ e ∈ d.entries,
      e.day ∈ DAYS ∧ truthy e.timeIn = true ∧ truthy e.timeOut = true := by
  induction h with
  | empty => intro e he; simp at he
  | add d c fid now hday hr ih =>
    intro e he
    rcases submitAdd_cases d c fid now with heq | ⟨heq, hin, hout⟩
    · rw [heq] at he; exact ih e he
    · rw [heq] at he
      unfold addEntry at he
      dsimp only at he
      rcases List.mem_append.mp he with he | he
      · exact ih e he
      · rw [List.mem_singleton] at he
        subst he
        refine ⟨hday, ?_, ?_⟩
        · dsimp only [truthy]
          simpa using hin
        · dsimp only [truthy]
          simpa using hout
  | remove d id ok hr ih =>
    intro e he
    rcases deleteEntry_cases ok d id with heq | heq
    · rw [heq] at he; exact ih e he
    · rw [heq] at he; exact ih e (List.mem_filter.mp he).1
  | edit d id hr ih =>
    intro e he
    rcases editEntry_fst_cases d id with heq | heq
    · rw [heq] at he; exact ih e he
    · rw [heq] at he; exact ih e (List.mem_filter.mp he).1
  | importStep d pr fids now ok hr ih =>
    intro e he
    rcases importMerge_cases d pr fids now ok with heq | ⟨items, heq⟩
    · rw [heq] at he; exact ih e he
    · rw [heq] at he
      rcases List.mem_append.mp he with he | he
      · exact ih e he
      · exact cleanList_invariant items fids now e he
  | clear d hr ih => intro e he; simp at he
  | reload d hr ih =>
    intro e he
    rw [loadState_docToJson d, jsonToDoc_docToJson d] at he
    exact ih e he

/-- Witness for the amended C7 at a state reached by one valid add. -/
theorem store_invariant_amended_witness :
    wEntryAnn.day ∈ DAYS ∧ truthy wEntryAnn.timeIn = true
    ∧ truthy wEntryAnn.timeOut = true := by
  have hr : Reachable addedDoc :=
    Reachable.add { entries := [] }
      { employee := "Ann", day := "Monday", timeIn := "09:00"
      , timeOut := "17:00", notes := "" } "idA" "tA" (by decide) Reachable.empty
  have hmem : wEntryAnn ∈ addedDoc.entries := by
    have he : addedDoc.entries = [wEntryAnn] := rfl
    rw [he]
    exact List.mem_singleton.mpr rfl
  exact store_invariant_amended addedDoc hr wEntryAnn hmem

end Timeclock
